import Mathlib

/-!
Verification of the tasktree incremental task runner (Python) against its
natural-language specification, via a shallow embedding in Lean 4.

Source files embedded here: src/tasktree/hasher.py, state.py, executor.py,
tasks.py, graph.py.  Machine integers do not occur (timestamps are Python
ints, modelled as Nat); Python dicts are modelled as insertion-ordered
association lists; fallible code returns Except.
-/

namespace TaskTree

/-- Association-list lookup, modelling Python `dict.get`: the store and the
per-task input state are dicts keyed by strings. -/
def alookup (k : String) : List (String × α) → Option α
  | [] => none
  | (k', v) :: rest => if k' = k then some v else alookup k rest

theorem alookup_nil (k : String) : alookup k ([] : List (String × α)) = none := rfl

theorem alookup_cons (k k' : String) (v : α) (rest : List (String × α)) :
    alookup k ((k', v) :: rest) = if k' = k then some v else alookup k rest := rfl

/-! ## hasher.py

`hash_task_definition` / `hash_arguments` canonicalise the relevant fields,
JSON-encode them and take the first 8 hex characters of a SHA-256 digest.
The SHA-256 truncation is not re-implemented; the embedding keeps the
canonical serialisation string itself, which is what determines the digest
(identical serialisations hash identically, and every claim below depends
only on the hash values as opaque strings or on which fields enter the
serialisation). -/

/-- Byte-wise lexicographic comparison of strings as code-point lists:
Python's `<=` on `str`, which `sorted` uses. -/
def charListLe : List Char → List Char → Bool
  | [], _ => true
  | _ :: _, [] => false
  | a :: as, b :: bs =>
    if a.toNat < b.toNat then true
    else if b.toNat < a.toNat then false
    else charListLe as bs

/-- Python `<=` on strings. -/
def strLe (a b : String) : Bool := charListLe a.toList b.toList

/-- Insertion step of a sort in Python's string order. -/
def insertStr (x : String) : List String → List String
  | [] => [x]
  | y :: ys => if strLe y x then y :: insertStr x ys else x :: y :: ys

/-- Python `sorted` on a list of strings (insertion sort; the elements
sorted in this development are pairwise distinct, so stability is moot). -/
def sortStr (l : List String) : List String :=
  l.foldr insertStr []

/-- Insertion step of a sort of (name, value) pairs by name. -/
def insertArg (x : String × String) :
    List (String × String) → List (String × String)
  | [] => [x]
  | y :: ys => if strLe y.1 x.1 then y :: insertArg x ys else x :: y :: ys

/-- Python `sorted(args.items())`: dict keys are unique, so sorting the
items orders them by name. -/
def sortArgs (l : List (String × String)) : List (String × String) :=
  l.foldr insertArg []

/-- The fields of a task definition, as `parser.py`'s `TaskDefinition`
properties expose them (the underlying YAML dict). -/
structure TaskDefinition where
  name : String
  cmd : String
  deps : List String
  inputs : List String
  outputs : List String
  working_dir : Option String
  args : List String
  /-- Name of a referenced Environment.  The source `TaskDefinition` stores
  the raw definition dict, which may carry an `env` key; the executor code
  under src never reads it (see the spec-modelled environment section). -/
  env : Option String := none
  desc : Option String := none
deriving Repr, DecidableEq

/-- Embeds `hasher.hash_task_definition`: the canonical serialisation of
`cmd`, sorted `outputs`, `working_dir` (default ""), sorted `args`.
`deps`, `inputs` and `desc` are excluded, exactly as in the source. -/
def hash_task_definition (t : TaskDefinition) : String :=
  "cmd=" ++ t.cmd
    ++ ";outputs=" ++ String.intercalate "," (sortStr t.outputs)
    ++ ";working_dir=" ++ t.working_dir.getD ""
    ++ ";args=" ++ String.intercalate "," (sortStr t.args)

/-- Embeds `hasher.hash_arguments`: empty arguments give the empty string
(not a hash of the empty map); otherwise the arguments are stringified and
sorted by name before being serialised. -/
def hash_arguments (args : List (String × String)) : String :=
  if args = [] then ""
  else
    String.intercalate "," ((sortArgs args).map (fun p => p.1 ++ "=" ++ p.2))

/-- Embeds `hasher.make_cache_key`: `task_hash__args_hash` when an argument
hash is present, `task_hash` alone otherwise. -/
def make_cache_key (task_hash : String) (args_hash : String) : String :=
  if args_hash ≠ "" then task_hash ++ "__" ++ args_hash else task_hash

/-! ## state.py -/

/-- Embeds `state.TaskState`: timestamp of the last successful run and the
mapping from tracked input path to the mtime observed then.  The source
stores Python ints (`int(st_mtime)`, `int(time.time())`). -/
structure TaskState where
  last_run : Nat
  input_state : List (String × Nat)
deriving Repr, DecidableEq

/-- The in-memory store of `state.StateManager`: cache key → TaskState,
insertion-ordered like the Python dict. -/
def Store := List (String × TaskState)

instance : DecidableEq Store := by unfold Store; infer_instance

/-- The characters before the first occurrence of the separator `__`
(the whole list when the separator does not occur). -/
def charsBeforeSep : List Char → List Char
  | [] => []
  | '_' :: '_' :: _ => []
  | c :: rest => c :: charsBeforeSep rest

/-- The definition-hash component of a cache key, as
`prune_invalid_entries` recovers it: `cache_key.split("__")[0]`, i.e. the
part of the key before the first `__` separator. -/
def cache_key_def_hash (cache_key : String) : String :=
  String.mk (charsBeforeSep cache_key.toList)

/-- Embeds `StateManager.prune_invalid_entries`: walk the stored keys in
order, delete every entry whose definition-hash component is not among the
valid hashes, and collect the removed keys in encounter order.  Returns
(new store, removed keys). -/
def prune_invalid_entries (valid_task_hashes : List String) :
    List (String × TaskState) → List (String × TaskState) × List String
  | [] => ([], [])
  | e :: rest =>
    let r := prune_invalid_entries valid_task_hashes rest
    if valid_task_hashes.contains (cache_key_def_hash e.1)
    then (e :: r.1, r.2)
    else (r.1, e.1 :: r.2)

/-- C7. For every stored state and every set of valid definition hashes,
`prune_invalid_entries` removes exactly those cache keys whose
definition-hash component (the part before the `__`-separated argument-hash
suffix, when one is present) is absent from the valid set, returns the
removed keys, and leaves every other entry (key and state value) untouched;
the definition-hash component of a key built by `make_cache_key` is the
task hash, with and without an argument-hash suffix. -/
theorem prune_invalid_entries_spec :
    ∀ (valid : List String) (st : List (String × TaskState)),
      (prune_invalid_entries valid st).1
          = st.filter (fun e => valid.contains (cache_key_def_hash e.1))
        ∧ (prune_invalid_entries valid st).2
          = (st.filter (fun e => !valid.contains (cache_key_def_hash e.1))).map Prod.fst
        ∧ cache_key_def_hash (make_cache_key "ab12cd34" "ef56ab78") = "ab12cd34"
        ∧ cache_key_def_hash (make_cache_key "ab12cd34" "") = "ab12cd34" := by
  intro valid st
  refine ⟨?_, ?_, by decide, by decide⟩
  · induction st with
    | nil => rfl
    | cons e rest ih =>
      simp only [prune_invalid_entries, List.filter_cons]
      cases h : valid.contains (cache_key_def_hash e.1) <;> simp [h, ih]
  · induction st with
    | nil => rfl
    | cons e rest ih =>
      simp only [prune_invalid_entries, List.filter_cons]
      cases h : valid.contains (cache_key_def_hash e.1) <;> simp [h, ih]

/-! ## executor.py — staleness detection

The executor reads the filesystem (glob matches, existence, mtimes) and the
state store.  The filesystem is modelled as the finite set of existing
files with their integer mtimes; glob pattern matching is abstracted as a
boolean relation `m : pattern → path → Bool`, and `glob.glob` returns
exactly the currently existing paths the pattern matches.  Every call the
code makes on the `StateManager` is recorded in an operation log, so frame
properties are visible. -/

/-- Embeds `executor.TaskStatus` (the dataclass; `__post_init__` turns a
`None` changed-files list into `[]`, so the field is a plain list). -/
structure TaskStatus where
  task_name : String
  will_run : Bool
  reason : String
  changed_files : List String := []
  last_run : Option Nat := none
deriving Repr, DecidableEq

/-- The files existing under the project root (paths relative to it) with
their integer modification times (`int(st_mtime)`). -/
structure FileSys where
  files : List (String × Nat)
deriving Repr, DecidableEq

/-- Current mtime of a path, `none` when the file does not exist. -/
def FileSys.mtime (fs : FileSys) (path : String) : Option Nat :=
  alookup path fs.files

/-- `Path.exists()`. -/
def FileSys.existsPath (fs : FileSys) (path : String) : Bool :=
  (fs.mtime path).isSome

/-- `glob.glob(pattern)`: the currently existing paths matched by the
pattern (a deleted file is matched by no glob call). -/
def globMatch (m : String → String → Bool) (fs : FileSys) (pat : String) :
    List String :=
  (fs.files.filter (fun e => m pat e.1)).map Prod.fst

/-- An operation performed on the `StateManager`. -/
inductive StOp where
  | get (key : String)
  | set (key : String)
  | save
deriving Repr, DecidableEq

/-- Embeds `TaskExecutor._get_all_input_files`: the set (deduplicated) of
currently existing files matching any declared input pattern. -/
def get_all_input_files (m : String → String → Bool) (fs : FileSys)
    (task_def : TaskDefinition) : List String :=
  (task_def.inputs.flatMap (globMatch m fs)).dedup

/-- Embeds `TaskExecutor._get_input_changes`: of the files returned by
`_get_all_input_files`, those that do not exist, have no recorded mtime, or
whose current mtime is strictly greater than the recorded one. -/
def get_input_changes (m : String → String → Bool) (fs : FileSys)
    (task_def : TaskDefinition) (cached_state : TaskState) : List String :=
  (get_all_input_files m fs task_def).filter (fun f =>
    match fs.mtime f with
    | none => true
    | some current =>
      match alookup f cached_state.input_state with
      | none => true
      | some cached => decide (current > cached))

/-- Embeds `TaskExecutor.check_task_status`: the staleness state machine,
first match wins.  `_task_definition_changed` returns `False`
unconditionally in the source, so no branch for it appears.  Returns the
status, the store as left behind, and the log of `StateManager` calls. -/
def check_task_status (m : String → String → Bool) (fs : FileSys)
    (store : Store) (task_def : TaskDefinition)
    (args : List (String × String))
    (dep_statuses : List (String × TaskStatus)) :
    TaskStatus × Store × List StOp :=
  let task_hash := hash_task_definition task_def
  let args_hash := if args ≠ [] then hash_arguments args else ""
  let cache_key := make_cache_key task_hash args_hash
  let status : TaskStatus :=
    match alookup cache_key store with
    | none =>
      { task_name := task_def.name, will_run := true, reason := "never_run" }
    | some cached_state =>
      let input_changes := get_input_changes m fs task_def cached_state
      if input_changes ≠ [] then
        { task_name := task_def.name, will_run := true,
          reason := "inputs_changed", changed_files := input_changes }
      else
        match task_def.outputs.find? (fun pat => !(fs.existsPath pat)) with
        | some pat =>
          { task_name := task_def.name, will_run := true,
            reason := "outputs_missing", changed_files := [pat] }
        | none =>
          if dep_statuses.any (fun p => p.2.will_run) then
            { task_name := task_def.name, will_run := true,
              reason := "dependency_triggered" }
          else if task_def.inputs.isEmpty && task_def.outputs.isEmpty then
            { task_name := task_def.name, will_run := true,
              reason := "no_outputs" }
          else
            { task_name := task_def.name, will_run := false, reason := "fresh",
              last_run := some cached_state.last_run }
  (status, store, [.get cache_key])

/-- `check_task_status` leaves the store as it was and logs exactly one
read of the task's cache key. -/
theorem check_task_status_state_log (m : String → String → Bool)
    (fs : FileSys) (store : Store) (task_def : TaskDefinition)
    (args : List (String × String)) (dep_statuses : List (String × TaskStatus)) :
    (check_task_status m fs store task_def args dep_statuses).2
      = (store, [StOp.get (make_cache_key (hash_task_definition task_def)
          (if args ≠ [] then hash_arguments args else ""))]) := rfl

/-- C10. For every task definition, argument map and dependency-status
map, `check_task_status` is a pure query on the state store: it leaves the
store exactly as it was, and the only `StateManager` operations it performs
are reads — no entry is created, modified or deleted and the state file is
never written. -/
theorem check_task_status_is_pure_query :
    ∀ (m : String → String → Bool) (fs : FileSys) (store : Store)
      (task_def : TaskDefinition) (args : List (String × String))
      (dep_statuses : List (String × TaskStatus)),
      (check_task_status m fs store task_def args dep_statuses).2.1 = store
      ∧ ∀ op ∈ (check_task_status m fs store task_def args dep_statuses).2.2,
          (∃ key, op = StOp.get key)
          ∧ (∀ key, op ≠ StOp.set key) ∧ op ≠ StOp.save := by
  intro m fs store task_def args dep_statuses
  refine ⟨rfl, ?_⟩
  intro op hop
  simp only [check_task_status_state_log, List.mem_singleton] at hop
  subst hop
  exact ⟨⟨_, rfl⟩, fun key => by simp, by simp⟩

/-- The task definition used in the input-change counterexamples: one
declared input `a.txt`, no outputs. -/
def c4task : TaskDefinition :=
  { name := "build", cmd := "gcc a.txt", deps := [], inputs := ["a.txt"],
    outputs := [], working_dir := none, args := [] }

/-- The cache key `check_task_status` computes for `c4task` without
arguments. -/
def c4key : String := make_cache_key (hash_task_definition c4task) ""

/-- C4. Evaluation of `check_task_status` around recorded input `a.txt`
(recorded mtime 100): deleting the file yields `fresh` with `will_run =
false` — the deletion is never reported, because `_get_all_input_files`
returns only currently existing glob matches, so the `not exists` branch of
`_get_input_changes` cannot see a deleted recorded input.  A current mtime
strictly greater than the recorded one is reported as `inputs_changed`
listing the path, and an equal mtime is reported `fresh`, as the claim
states. -/
theorem deleted_input_reported_fresh :
    (check_task_status (fun pat p => pat == p) ⟨[]⟩
        [(c4key, { last_run := 100, input_state := [("a.txt", 100)] })]
        c4task [] []).1
      = { task_name := "build", will_run := false, reason := "fresh",
          changed_files := [], last_run := some 100 }
    ∧ (check_task_status (fun pat p => pat == p) ⟨[("a.txt", 150)]⟩
        [(c4key, { last_run := 100, input_state := [("a.txt", 100)] })]
        c4task [] []).1
      = { task_name := "build", will_run := true, reason := "inputs_changed",
          changed_files := ["a.txt"], last_run := none }
    ∧ (check_task_status (fun pat p => pat == p) ⟨[("a.txt", 100)]⟩
        [(c4key, { last_run := 100, input_state := [("a.txt", 100)] })]
        c4task [] []).1
      = { task_name := "build", will_run := false, reason := "fresh",
          changed_files := [], last_run := some 100 } := by
  refine ⟨by decide, by decide, by decide⟩

/-! ## executor.py — command preparation and execution -/

/-- Replacement of every non-overlapping occurrence of the (non-empty)
pattern `t0 :: ts` by `repl`, scanning left to right: Python
`str.replace`.  The fuel argument only drives the structural recursion;
every step consumes at least one character, so fuel equal to the input
length is always sufficient and the zero-fuel arm is unreachable from
`pyReplace`. -/
def replaceAll (t0 : Char) (ts : List Char) (repl : List Char) :
    Nat → List Char → List Char
  | _, [] => []
  | 0, l => l
  | fuel + 1, c :: rest =>
    if (t0 :: ts).isPrefixOf (c :: rest)
    then repl ++ replaceAll t0 ts repl fuel (rest.drop ts.length)
    else c :: replaceAll t0 ts repl fuel rest

/-- Python `s.replace(target, repl)`.  The empty-target case (where Python
interleaves `repl` between characters) never arises here: the only call
site uses the non-empty target `"{{" + name + "}}"`. -/
def pyReplace (s target repl : String) : String :=
  match target.toList with
  | [] => s
  | t0 :: ts => String.mk (replaceAll t0 ts repl.toList s.toList.length s.toList)

/-- Embeds `TaskExecutor._prepare_command`: with no arguments the command
is returned as is; otherwise each argument name is substituted for the
exact text `{{name}}` (no whitespace tolerance, no scope qualifier), in
dict insertion order.  Nothing checks for placeholders left unresolved. -/
def prepare_command (cmd : String) (args : List (String × String)) : String :=
  if args = [] then cmd
  else args.foldl
    (fun result p => pyReplace result ("\x7b\x7b" ++ p.1 ++ "\x7d\x7d") p.2) cmd

/-- A store write: Python `self._state[cache_key] = state` (replace in
place when the key exists, append otherwise). -/
def storeSet (k : String) (v : TaskState) : Store → Store
  | [] => [(k, v)]
  | (k', v') :: rest =>
    if k' = k then (k, v) :: rest else (k', v') :: storeSet k v rest

/-- Embeds `TaskExecutor._update_task_state`: recompute the cache key,
record the current mtime of every (existing) input file and the current
time, store the new `TaskState` and save the store to disk. -/
def update_task_state (m : String → String → Bool) (fs : FileSys) (now : Nat)
    (store : Store) (task_def : TaskDefinition)
    (args : List (String × String)) : Store × List StOp :=
  let task_hash := hash_task_definition task_def
  let args_hash := if args ≠ [] then hash_arguments args else ""
  let cache_key := make_cache_key task_hash args_hash
  let input_state := (get_all_input_files m fs task_def).filterMap
    (fun f => (fs.mtime f).map (fun mt => (f, mt)))
  (storeSet cache_key { last_run := now, input_state := input_state } store,
    [.set cache_key, .save])

/-- Outcome of `subprocess.run(cmd, shell=True, ...)`: an exception while
spawning, or the child's exit code.  Modelled as a function of the rendered
command string. -/
def SpawnOutcome := String → Except Unit Int

/-- Embeds `TaskExecutor.execute_task`: render the command via
`_prepare_command`, spawn it; an exception while spawning prints an error
and returns 1; a zero exit code updates the state (and saves); the exit
code is returned.  Returns (exit code, store, `StateManager` log). -/
def execute_task (m : String → String → Bool) (fs : FileSys) (now : Nat)
    (outcomes : SpawnOutcome) (store : Store) (task_def : TaskDefinition)
    (args : List (String × String)) : Int × Store × List StOp :=
  let cmd := prepare_command task_def.cmd args
  match outcomes cmd with
  | .error _ => (1, store, [])
  | .ok rc =>
    if rc = 0 then
      let r := update_task_state m fs now store task_def args
      (rc, r.1, r.2)
    else (rc, store, [])

/-- C1. The command `echo {{name}}` whose placeholder is bound in no
scope renders unchanged — the placeholder is left in the command as
literal text both with an empty argument map and with an argument map
binding a different name — and `execute_task` then spawns exactly that
half-rendered string: with a spawn model that accepts precisely the
literal text `echo {{name}}`, execution proceeds and returns exit code 0
instead of failing before the command is executed. -/
theorem prepare_command_leaves_placeholder :
    prepare_command "echo \x7b\x7bname\x7d\x7d" []
        = "echo \x7b\x7bname\x7d\x7d"
    ∧ prepare_command "echo \x7b\x7bname\x7d\x7d" [("other", "v")]
        = "echo \x7b\x7bname\x7d\x7d"
    ∧ (execute_task (fun pat p => pat == p) ⟨[]⟩ 7
        (fun cmd => if cmd = "echo \x7b\x7bname\x7d\x7d" then .ok 0
                    else .error ())
        [] { name := "t", cmd := "echo \x7b\x7bname\x7d\x7d", deps := [],
             inputs := [], outputs := [], working_dir := none, args := [] }
        [("other", "v")]).1 = 0 := by
  refine ⟨by decide, by decide, by decide⟩

/-! ## graph.py — dependency resolution

`resolve_dependencies` builds `{name: set(deps)}` and calls
`graphlib.TopologicalSorter(graph).static_order()`, wrapping the
`CycleError` raised on a cyclic graph into a `ValueError`.  The embedding
implements the observable contract of `static_order` (Kahn's algorithm:
repeatedly emit every node whose dependencies are all emitted; when no
node can be emitted and some remain, fail carrying the unprocessable
nodes — `CycleError`).  Nodes appearing only as dependencies are part of
the graph, as `TopologicalSorter` adds them implicitly. -/

/-- The declared direct dependencies of a task name (`graph.get("deps", [])`
via the tasks mapping; a name that is no key has none). -/
def depsOf (tasks : List (String × List String)) (n : String) : List String :=
  (alookup n tasks).getD []

/-- All nodes of the dependency graph: every task name and every name
mentioned as a dependency. -/
def graphNodes (tasks : List (String × List String)) : List String :=
  (tasks.map Prod.fst ++ tasks.flatMap Prod.snd).dedup

/-- One Kahn round: emit every remaining node whose dependencies are all
emitted; fail with the remaining nodes when none is ready.  The fuel only
drives the structural recursion; each round removes at least one node, so
fuel equal to the number of nodes is always sufficient. -/
def kahnAux (dep : String → List String) :
    Nat → List String → List String → Except (List String) (List String)
  | 0, emitted, remaining =>
    if remaining = [] then .ok emitted else .error remaining
  | fuel + 1, emitted, remaining =>
    if remaining = [] then .ok emitted
    else
      let ready :=
        remaining.filter (fun n => (dep n).all (fun d => emitted.contains d))
      if ready = [] then .error remaining
      else
        kahnAux dep fuel (emitted ++ ready)
          (remaining.filter
            (fun n => !(dep n).all (fun d => emitted.contains d)))

/-- Embeds `graph.resolve_dependencies`: a topological order of all graph
nodes, or the set of nodes left unprocessable by a dependency cycle. -/
def resolve_dependencies (tasks : List (String × List String)) :
    Except (List String) (List String) :=
  kahnAux (depsOf tasks) (graphNodes tasks).length [] (graphNodes tasks)

/-- `x` transitively depends on `y` (one or more `deps` steps). -/
def DependsOn (tasks : List (String × List String)) (x y : String) : Prop :=
  Relation.TransGen (fun a b => b ∈ depsOf tasks a) x y

/-- An emission list in which every emitted node's direct dependencies are
emitted at strictly earlier positions. -/
def OrderedByDeps (dep : String → List String) (l : List String) : Prop :=
  ∀ n ∈ l, ∀ d ∈ dep n, d ∈ l ∧ l.indexOf d < l.indexOf n

theorem OrderedByDeps.trans_before {dep : String → List String}
    {l : List String} (h : OrderedByDeps dep l) {x y : String}
    (ht : Relation.TransGen (fun a b => b ∈ dep a) x y) (hx : x ∈ l) :
    y ∈ l ∧ l.indexOf y < l.indexOf x := by
  induction ht with
  | single hr => exact h x hx _ hr
  | tail _ hbc ih =>
    obtain ⟨hb, hlt⟩ := ih
    obtain ⟨hy, hlt2⟩ := h _ hb _ hbc
    exact ⟨hy, hlt2.trans hlt⟩

/-- Appending nodes whose dependencies are all in the prefix preserves the
ordering invariant. -/
theorem OrderedByDeps.append_ready {dep : String → List String}
    {E ready : List String} (h : OrderedByDeps dep E)
    (hready : ∀ n ∈ ready, (∀ d ∈ dep n, d ∈ E) ∧ n ∉ E) :
    OrderedByDeps dep (E ++ ready) := by
  intro n hn d hd
  rcases List.mem_append.1 hn with hnE | hnr
  · obtain ⟨hdE, hlt⟩ := h n hnE d hd
    refine ⟨List.mem_append_left _ hdE, ?_⟩
    rw [List.indexOf_append_of_mem hdE, List.indexOf_append_of_mem hnE]
    exact hlt
  · obtain ⟨hdeps, hnotE⟩ := hready n hnr
    have hdE := hdeps d hd
    refine ⟨List.mem_append_left _ hdE, ?_⟩
    rw [List.indexOf_append_of_mem hdE, List.indexOf_append_of_not_mem hnotE]
    exact Nat.lt_of_lt_of_le (List.indexOf_lt_length.2 hdE) (Nat.le_add_right ..)

/-- Soundness of the Kahn loop: from a well-formed intermediate
configuration, a successful run yields a duplicate-free order, ordered by
dependencies, containing every emitted and every remaining node. -/
theorem kahnAux_ok_invariant (dep : String → List String) :
    ∀ (fuel : Nat) (E R order : List String),
      kahnAux dep fuel E R = .ok order →
      E.Nodup → R.Nodup → (∀ n ∈ R, n ∉ E) → OrderedByDeps dep E →
      (∀ n ∈ R, ∀ d ∈ dep n, d ∈ E ∨ d ∈ R) →
      order.Nodup ∧ OrderedByDeps dep order
        ∧ (∀ n ∈ E, n ∈ order) ∧ (∀ n ∈ R, n ∈ order) := by
  intro fuel
  induction fuel with
  | zero =>
    intro E R order h hE hR hdisj hord _hclose
    by_cases hRnil : R = []
    · subst hRnil
      simp only [kahnAux, if_true, Except.ok.injEq] at h
      subst h
      exact ⟨hE, hord, fun n hn => hn, by simp⟩
    · simp [kahnAux, hRnil] at h
  | succ fuel ih =>
    intro E R order h hE hR hdisj hord hclose
    by_cases hRnil : R = []
    · subst hRnil
      simp only [kahnAux, if_true, Except.ok.injEq] at h
      subst h
      exact ⟨hE, hord, fun n hn => hn, by simp⟩
    · simp only [kahnAux, if_neg hRnil] at h
      by_cases hrdy :
          R.filter (fun n => (dep n).all (fun d => E.contains d)) = []
      · rw [if_pos hrdy] at h
        exact absurd h (by simp)
      · rw [if_neg hrdy] at h
        have hready_mem : ∀ n ∈ R.filter
              (fun n => (dep n).all (fun d => E.contains d)),
            n ∈ R ∧ (dep n).all (fun d => E.contains d) = true :=
          fun n hn => List.mem_filter.1 hn
        have hready_deps : ∀ n ∈ R.filter
              (fun n => (dep n).all (fun d => E.contains d)),
            ∀ d ∈ dep n, d ∈ E := by
          intro n hn d hd
          have hall := List.all_eq_true.1 (hready_mem n hn).2 d hd
          simpa using hall
        have hready_notE : ∀ n ∈ R.filter
              (fun n => (dep n).all (fun d => E.contains d)), n ∉ E :=
          fun n hn => hdisj n (hready_mem n hn).1
        have hE' : (E ++ R.filter
            (fun n => (dep n).all (fun d => E.contains d))).Nodup :=
          List.Nodup.append hE (hR.filter _)
            (fun a haE haR => hready_notE a haR haE)
        have hdisj' : ∀ n ∈ R.filter
              (fun n => !(dep n).all (fun d => E.contains d)),
            n ∉ E ++ R.filter
              (fun n => (dep n).all (fun d => E.contains d)) := by
          intro n hn hmem
          obtain ⟨hnR, hnp⟩ := List.mem_filter.1 hn
          rcases List.mem_append.1 hmem with hmE | hmr
          · exact hdisj n hnR hmE
          · have := (List.mem_filter.1 hmr).2
            simp only [Bool.not_eq_true'] at hnp
            rw [hnp] at this
            exact absurd this (by simp)
        have hord' : OrderedByDeps dep (E ++ R.filter
            (fun n => (dep n).all (fun d => E.contains d))) :=
          hord.append_ready
            (fun n hn => ⟨hready_deps n hn, hready_notE n hn⟩)
        have hclose' : ∀ n ∈ R.filter
              (fun n => !(dep n).all (fun d => E.contains d)),
            ∀ d ∈ dep n,
              d ∈ E ++ R.filter
                (fun n => (dep n).all (fun d => E.contains d))
              ∨ d ∈ R.filter
                (fun n => !(dep n).all (fun d => E.contains d)) := by
          intro n hn d hd
          have hnR := (List.mem_filter.1 hn).1
          rcases hclose n hnR d hd with hdE | hdR
          · exact Or.inl (List.mem_append_left _ hdE)
          · by_cases hp : (dep d).all (fun d' => E.contains d') = true
            · exact Or.inl
                (List.mem_append_right _ (List.mem_filter.2 ⟨hdR, hp⟩))
            · have hp' : ((dep d).all fun d' => E.contains d') = false := by
                revert hp
                cases ((dep d).all fun d' => E.contains d') <;> simp
              exact Or.inr (List.mem_filter.2 ⟨hdR, by simpa using hp'⟩)
        obtain ⟨h1, h2, h3, h4⟩ :=
          ih _ _ order h hE' (hR.filter _) hdisj' hord' hclose'
        refine ⟨h1, h2, fun n hn => h3 n (List.mem_append_left _ hn),
          fun n hn => ?_⟩
        by_cases hp : (dep n).all (fun d => E.contains d) = true
        · exact h3 n (List.mem_append_right _ (List.mem_filter.2 ⟨hn, hp⟩))
        · have hp' : ((dep n).all fun d => E.contains d) = false := by
            revert hp
            cases ((dep n).all fun d => E.contains d) <;> simp
          exact h4 n (List.mem_filter.2 ⟨hn, by simpa using hp'⟩)

/-- A nonempty finite set of nodes each of which has a direct dependency
inside the set contains a dependency cycle. -/
theorem exists_cycle_of_succ (dep : String → List String) (R : List String)
    (hne : R ≠ []) (hsucc : ∀ n ∈ R, ∃ d, d ∈ dep n ∧ d ∈ R) :
    ∃ x, Relation.TransGen (fun a b => b ∈ dep a) x x := by
  classical
  let g : String → String := fun n =>
    if h : ∃ d, d ∈ dep n ∧ d ∈ R then h.choose else n
  have hg : ∀ n ∈ R, g n ∈ dep n ∧ g n ∈ R := by
    intro n hn
    have h : ∃ d, d ∈ dep n ∧ d ∈ R := hsucc n hn
    simp only [g, dif_pos h]
    exact h.choose_spec
  obtain ⟨x₀, hx₀⟩ : ∃ x, x ∈ R := by
    cases R with
    | nil => exact absurd rfl hne
    | cons a t => exact ⟨a, by simp⟩
  let seq : Nat → String := fun k => g^[k] x₀
  have hseqR : ∀ k, seq k ∈ R := by
    intro k
    induction k with
    | zero => simpa [seq] using hx₀
    | succ k ih =>
      have hs : seq (k + 1) = g (seq k) := by
        simp [seq, Function.iterate_succ_apply']
      rw [hs]
      exact (hg _ ih).2
  have hstep : ∀ k, seq (k + 1) ∈ dep (seq k) := by
    intro k
    have hs : seq (k + 1) = g (seq k) := by
      simp [seq, Function.iterate_succ_apply']
    rw [hs]
    exact (hg _ (hseqR k)).1
  have htg : ∀ i k,
      Relation.TransGen (fun a b => b ∈ dep a) (seq i) (seq (i + k + 1)) := by
    intro i k
    induction k with
    | zero => exact Relation.TransGen.single (hstep i)
    | succ k ih => exact Relation.TransGen.tail ih (hstep (i + k + 1))
  have key : ∀ a b : Nat, a < b → seq a = seq b →
      ∃ x, Relation.TransGen (fun p q => q ∈ dep p) x x := by
    intro a b hab he
    obtain ⟨k, hk⟩ : ∃ k, b = a + k + 1 := ⟨b - a - 1, by omega⟩
    subst hk
    have h := htg a k
    rw [← he] at h
    exact ⟨seq a, h⟩
  have hcard : R.toFinset.card
      < (Finset.univ : Finset (Fin (R.length + 1))).card := by
    have := R.toFinset_card_le
    simp only [Finset.card_univ, Fintype.card_fin]
    omega
  obtain ⟨i, _, j, _, hij, heq⟩ :=
    Finset.exists_ne_map_eq_of_card_lt_of_maps_to hcard
      (fun (i : Fin (R.length + 1)) _ => List.mem_toFinset.2 (hseqR i.val))
  have hne' : i.val ≠ j.val := fun hv => hij (Fin.ext hv)
  rcases lt_or_gt_of_ne hne' with hlt | hgt
  · exact key i.val j.val hlt heq
  · exact key j.val i.val hgt heq.symm

/-- The nodes made ready in one Kahn round keep the configuration
well-formed: the grown emission list is duplicate-free and ordered by
dependencies, and stays disjoint from the shrunk remainder. -/
theorem ready_invariants (dep : String → List String) (E R : List String)
    (hE : E.Nodup) (hR : R.Nodup) (hdisj : ∀ n ∈ R, n ∉ E)
    (hord : OrderedByDeps dep E) :
    (E ++ R.filter (fun n => (dep n).all (fun d => E.contains d))).Nodup
    ∧ (∀ n ∈ R.filter (fun n => !(dep n).all (fun d => E.contains d)),
        n ∉ E ++ R.filter (fun n => (dep n).all (fun d => E.contains d)))
    ∧ OrderedByDeps dep
        (E ++ R.filter (fun n => (dep n).all (fun d => E.contains d))) := by
  have hready_mem : ∀ n ∈ R.filter
        (fun n => (dep n).all (fun d => E.contains d)),
      n ∈ R ∧ (dep n).all (fun d => E.contains d) = true :=
    fun n hn => List.mem_filter.1 hn
  have hready_deps : ∀ n ∈ R.filter
        (fun n => (dep n).all (fun d => E.contains d)),
      ∀ d ∈ dep n, d ∈ E := by
    intro n hn d hd
    have hall := List.all_eq_true.1 (hready_mem n hn).2 d hd
    simpa using hall
  have hready_notE : ∀ n ∈ R.filter
        (fun n => (dep n).all (fun d => E.contains d)), n ∉ E :=
    fun n hn => hdisj n (hready_mem n hn).1
  refine ⟨List.Nodup.append hE (hR.filter _)
      (fun a haE haR => hready_notE a haR haE), ?_, ?_⟩
  · intro n hn hmem
    obtain ⟨hnR, hnp⟩ := List.mem_filter.1 hn
    rcases List.mem_append.1 hmem with hmE | hmr
    · exact hdisj n hnR hmE
    · have hmp := (List.mem_filter.1 hmr).2
      simp only [Bool.not_eq_true'] at hnp
      rw [hnp] at hmp
      exact absurd hmp (by simp)
  · exact hord.append_ready
      (fun n hn => ⟨hready_deps n hn, hready_notE n hn⟩)

/-- Dependency closure of the remaining nodes is preserved by one Kahn
round. -/
theorem closure_step (dep : String → List String) (E R : List String)
    (hclose : ∀ n ∈ R, ∀ d ∈ dep n, d ∈ E ∨ d ∈ R) :
    ∀ n ∈ R.filter (fun n => !(dep n).all (fun d => E.contains d)),
      ∀ d ∈ dep n,
        d ∈ E ++ R.filter (fun n => (dep n).all (fun d => E.contains d))
        ∨ d ∈ R.filter (fun n => !(dep n).all (fun d => E.contains d)) := by
  intro n hn d hd
  have hnR := (List.mem_filter.1 hn).1
  rcases hclose n hnR d hd with hdE | hdR
  · exact Or.inl (List.mem_append_left _ hdE)
  · by_cases hp : (dep d).all (fun d' => E.contains d') = true
    · exact Or.inl (List.mem_append_right _ (List.mem_filter.2 ⟨hdR, hp⟩))
    · have hp' : ((dep d).all fun d' => E.contains d') = false := by
        revert hp
        cases ((dep d).all fun d' => E.contains d') <;> simp
      exact Or.inr (List.mem_filter.2 ⟨hdR, by simpa using hp'⟩)

/-- The Kahn loop succeeds on an acyclic graph (with fuel at least the
number of remaining nodes). -/
theorem kahnAux_progress (dep : String → List String) :
    ∀ (fuel : Nat) (E R : List String),
      R.length ≤ fuel →
      (∀ n ∈ R, ∀ d ∈ dep n, d ∈ E ∨ d ∈ R) →
      (¬ ∃ x, Relation.TransGen (fun a b => b ∈ dep a) x x) →
      ∃ order, kahnAux dep fuel E R = .ok order := by
  intro fuel
  induction fuel with
  | zero =>
    intro E R hlen _ _
    have hRnil : R = [] := List.eq_nil_of_length_eq_zero (Nat.le_zero.1 hlen)
    subst hRnil
    exact ⟨E, by simp [kahnAux]⟩
  | succ fuel ih =>
    intro E R hlen hclose hacyc
    by_cases hRnil : R = []
    · subst hRnil
      exact ⟨E, by simp [kahnAux]⟩
    · have hrdy :
          R.filter (fun n => (dep n).all (fun d => E.contains d)) ≠ [] := by
        intro hfil
        apply hacyc
        apply exists_cycle_of_succ dep R hRnil
        intro n hn
        have hpn := List.filter_eq_nil_iff.1 hfil n hn
        have hex : ∃ d ∈ dep n, ¬ d ∈ E := by simpa using hpn
        obtain ⟨d, hd, hdE⟩ := hex
        rcases hclose n hn d hd with h | h
        · exact absurd h hdE
        · exact ⟨d, hd, h⟩
      have hlen' :
          (R.filter (fun n => !(dep n).all (fun d => E.contains d))).length
            ≤ fuel := by
        obtain ⟨x, hx⟩ : ∃ x, x ∈ R.filter
            (fun n => (dep n).all (fun d => E.contains d)) := by
          cases hc : R.filter (fun n => (dep n).all (fun d => E.contains d))
            with
          | nil => exact absurd hc hrdy
          | cons a t => exact ⟨a, by simp [hc]⟩
        have hxR := (List.mem_filter.1 hx).1
        have hxp := (List.mem_filter.1 hx).2
        have hlt :
            (R.filter
                (fun n => !(dep n).all (fun d => E.contains d))).length
              < R.length := by
          apply List.length_filter_lt_length_iff_exists.2
          exact ⟨x, hxR, by simpa using hxp⟩
        omega
      obtain ⟨order, hord⟩ := ih _ _ hlen' (closure_step dep E R hclose) hacyc
      refine ⟨order, ?_⟩
      simp only [kahnAux, if_neg hRnil]
      rw [if_neg hrdy]
      exact hord

/-- A node lying on a dependency cycle is never emitted: from any
well-formed configuration containing it among the remaining nodes, the
Kahn loop fails, and the node is among the unprocessable nodes the failure
reports. -/
theorem kahnAux_cycle (dep : String → List String) :
    ∀ (fuel : Nat) (E R : List String) (x : String),
      E.Nodup → R.Nodup → (∀ n ∈ R, n ∉ E) → OrderedByDeps dep E →
      x ∈ R → Relation.TransGen (fun a b => b ∈ dep a) x x →
      ∃ stuck, kahnAux dep fuel E R = .error stuck ∧ x ∈ stuck := by
  intro fuel
  induction fuel with
  | zero =>
    intro E R x _ _ _ _ hx _
    have hRnil : R ≠ [] := by
      intro h
      subst h
      simp at hx
    exact ⟨R, by simp [kahnAux, hRnil], hx⟩
  | succ fuel ih =>
    intro E R x hE hR hdisj hord hx hcyc
    have hRnil : R ≠ [] := by
      intro h
      subst h
      simp at hx
    by_cases hrdy :
        R.filter (fun n => (dep n).all (fun d => E.contains d)) = []
    · refine ⟨R, ?_, hx⟩
      simp only [kahnAux, if_neg hRnil]
      rw [if_pos hrdy]
    · obtain ⟨hE', hdisj', hord'⟩ := ready_invariants dep E R hE hR hdisj hord
      have hxnr : x ∉ R.filter
          (fun n => (dep n).all (fun d => E.contains d)) := by
        intro hxr
        obtain ⟨_, hlt⟩ :=
          hord'.trans_before hcyc (List.mem_append_right _ hxr)
        exact absurd hlt (lt_irrefl _)
      have hxR' : x ∈ R.filter
          (fun n => !(dep n).all (fun d => E.contains d)) := by
        refine List.mem_filter.2 ⟨hx, ?_⟩
        by_cases hp : ((dep x).all fun d => E.contains d) = true
        · exact absurd (List.mem_filter.2 ⟨hx, hp⟩) hxnr
        · have hp' : ((dep x).all fun d => E.contains d) = false := by
            revert hp
            cases ((dep x).all fun d => E.contains d) <;> simp
          simpa using hp'
      obtain ⟨stuck, hs, hxs⟩ :=
        ih _ _ x hE' (hR.filter _) hdisj' hord' hxR' hcyc
      refine ⟨stuck, ?_, hxs⟩
      simp only [kahnAux, if_neg hRnil]
      rw [if_neg hrdy]
      exact hs

theorem alookup_mem {α : Type} {l : List (String × α)} {k : String} {v : α}
    (h : alookup k l = some v) : (k, v) ∈ l := by
  induction l with
  | nil => simp [alookup] at h
  | cons p rest ih =>
    obtain ⟨k', v'⟩ := p
    rw [alookup_cons] at h
    split at h
    · rename_i heq
      cases h
      subst heq
      exact List.mem_cons_self ..
    · exact List.mem_cons_of_mem _ (ih h)

theorem depsOf_mem_nodes {tasks : List (String × List String)} {n d : String}
    (hd : d ∈ depsOf tasks n) : d ∈ graphNodes tasks := by
  unfold depsOf at hd
  cases h : alookup n tasks with
  | none =>
    rw [h] at hd
    simp at hd
  | some ds =>
    rw [h] at hd
    simp only [Option.getD_some] at hd
    unfold graphNodes
    rw [List.mem_dedup]
    exact List.mem_append.2
      (Or.inr (List.mem_flatMap.2 ⟨(n, ds), alookup_mem h, hd⟩))

theorem key_mem_nodes {tasks : List (String × List String)}
    {p : String × List String} (hp : p ∈ tasks) : p.1 ∈ graphNodes tasks := by
  unfold graphNodes
  rw [List.mem_dedup]
  exact List.mem_append.2 (Or.inl (List.mem_map.2 ⟨p, hp, rfl⟩))

theorem cycle_node_mem_nodes {tasks : List (String × List String)} {x : String}
    (hx : DependsOn tasks x x) : x ∈ graphNodes tasks := by
  obtain ⟨b, hb, _⟩ := Relation.TransGen.head'_iff.1 hx
  unfold depsOf at hb
  cases h : alookup x tasks with
  | none =>
    rw [h] at hb
    simp at hb
  | some ds => exact key_mem_nodes (p := (x, ds)) (alookup_mem h)

/-- C6. For every task set whose `deps` relation forms a DAG,
`resolve_dependencies` returns an ordering of the graph's nodes, without
duplicates, containing every task, in which every task appears after all
of its transitive dependencies (every transitive dependency is in the
ordering at a strictly smaller index); and for every task set containing a
dependency cycle, `resolve_dependencies` fails with an error identifying
at least one task that lies on a cycle. -/
theorem resolve_dependencies_spec :
    ∀ (tasks : List (String × List String)),
      ((¬ ∃ x, DependsOn tasks x x) →
        ∃ order, resolve_dependencies tasks = .ok order
          ∧ order.Nodup
          ∧ (∀ p ∈ tasks, p.1 ∈ order)
          ∧ (∀ x y, DependsOn tasks x y → x ∈ order →
              y ∈ order ∧ order.indexOf y < order.indexOf x))
      ∧ ((∃ x, DependsOn tasks x x) →
        ∃ stuck, resolve_dependencies tasks = .error stuck
          ∧ ∃ x ∈ stuck, DependsOn tasks x x) := by
  intro tasks
  constructor
  · intro hacyc
    obtain ⟨order, hok⟩ := kahnAux_progress (depsOf tasks)
      (graphNodes tasks).length [] (graphNodes tasks) le_rfl
      (fun n _ d hd => Or.inr (depsOf_mem_nodes hd)) hacyc
    obtain ⟨hnodup, hord, _hE, hR⟩ := kahnAux_ok_invariant (depsOf tasks)
      (graphNodes tasks).length [] (graphNodes tasks) order hok
      (by simp) (List.nodup_dedup _) (by simp)
      (fun n hn => absurd hn (List.not_mem_nil n))
      (fun n _ d hd => Or.inr (depsOf_mem_nodes hd))
    exact ⟨order, hok, hnodup,
      fun p hp => hR _ (key_mem_nodes hp),
      fun x y hxy hxo => hord.trans_before hxy hxo⟩
  · rintro ⟨x, hx⟩
    obtain ⟨stuck, herr, hxs⟩ := kahnAux_cycle (depsOf tasks)
      (graphNodes tasks).length [] (graphNodes tasks) x
      (by simp) (List.nodup_dedup _) (by simp)
      (fun n hn => absurd hn (List.not_mem_nil n))
      (cycle_node_mem_nodes hx) hx
    exact ⟨stuck, herr, x, hxs, hx⟩

/-! ## tasks.py — closure execution

`tasks.execute_task` computes the requested task's closure
(`_get_task_and_dependencies`, a posterior-order DFS), topologically sorts
it, and walks the order: check status, execute when stale, stop at the
first nonzero exit.  The walk is instrumented with a trace recording, for
every task whose status was checked, its name and the status's `will_run`
and `reason` — Python prints exactly this information. -/

/-- Embeds the body of `_get_task_and_dependencies`' recursive `visit`
over a worklist: skip visited names, fail on unknown names, visit a task's
dependencies first and append the task afterwards (postorder).  The fuel
only drives the structural recursion; the Python recursion terminates
because `visited` grows, and every theorem below instantiates the fuel
large enough. -/
def visitList (tasks : List (String × TaskDefinition)) :
    Nat → List String → List String → List String →
    Except String (List String × List String)
  | 0, _, _, _ => .error "recursion limit"
  | _ + 1, [], visited, result => .ok (visited, result)
  | fuel + 1, name :: names, visited, result =>
    if visited.contains name then visitList tasks fuel names visited result
    else
      match alookup name tasks with
      | none => .error ("Task not found: " ++ name)
      | some task_def =>
        match visitList tasks fuel task_def.deps (name :: visited) result with
        | .error msg => .error msg
        | .ok (v1, r1) => visitList tasks fuel names v1 (r1 ++ [name])

/-- Embeds `tasks._get_task_and_dependencies`: the task and all its
transitive dependencies, dependencies first. -/
def get_task_and_dependencies (tasks : List (String × TaskDefinition))
    (fuel : Nat) (name : String) : Except String (List String) :=
  match visitList tasks fuel [name] [] [] with
  | .error msg => .error msg
  | .ok r => .ok r.2

/-- Embeds the execution loop of `tasks.execute_task`: for each name of
the resolved order (skipping names outside the closure), check status
— note the source passes NO dependency statuses, `check_task_status`'s
`dep_statuses` parameter is left at its default — and, when the status
says run, execute; a nonzero exit code returns immediately.  Arguments are
propagated only to the requested task.  Returns exit code, final store and
the trace of (name, will_run, reason) of every task checked. -/
def run_loop (m : String → String → Bool) (fs : FileSys) (now : Nat)
    (outcomes : SpawnOutcome) (tasks : List (String × TaskDefinition))
    (task_deps : List String) (target : String)
    (args : List (String × String)) :
    List String → Store →
    Except String (Int × Store × List (String × Bool × String))
  | [], store => .ok (0, store, [])
  | name :: rest, store =>
    if task_deps.contains name then
      match alookup name tasks with
      | none => .error ("Task not found: " ++ name)
      | some task_def =>
        let targs := if name = target then args else []
        let c := check_task_status m fs store task_def targs []
        if c.1.will_run then
          let e := execute_task m fs now outcomes c.2.1 task_def targs
          if e.1 ≠ 0 then .ok (e.1, e.2.1, [(name, true, c.1.reason)])
          else
            match run_loop m fs now outcomes tasks task_deps target args
                rest e.2.1 with
            | .error msg => .error msg
            | .ok (code, st, trace) =>
              .ok (code, st, (name, true, c.1.reason) :: trace)
        else
          match run_loop m fs now outcomes tasks task_deps target args
              rest c.2.1 with
          | .error msg => .error msg
          | .ok (code, st, trace) =>
            .ok (code, st, (name, false, c.1.reason) :: trace)
    else run_loop m fs now outcomes tasks task_deps target args rest store

/-- Embeds `tasks.execute_task`: closure computation, dependency
resolution, then the execution loop. -/
def tasks_execute_task (m : String → String → Bool) (fs : FileSys)
    (now : Nat) (outcomes : SpawnOutcome)
    (tasks : List (String × TaskDefinition)) (fuel : Nat) (target : String)
    (args : List (String × String)) (store : Store) :
    Except String (Int × Store × List (String × Bool × String)) :=
  match alookup target tasks with
  | none => .error ("Task not found: " ++ target)
  | some _ =>
    match get_task_and_dependencies tasks fuel target with
    | .error msg => .error msg
    | .ok task_deps =>
      match resolve_dependencies (task_deps.map
          (fun n => (n, ((alookup n tasks).map TaskDefinition.deps).getD []))) with
      | .error _ => .error "Dependency resolution failed"
      | .ok execution_order =>
        run_loop m fs now outcomes tasks task_deps target args
          execution_order store

/-- C8. For every task execution whose spawned command fails to spawn or
exits nonzero, `execute_task` returns a nonzero exit code, performs no
`StateManager` operation and leaves the store unchanged (the task's entry
is neither created nor updated); and the closure loop, upon executing that
task at the head of the remaining order, returns that nonzero exit code
immediately with the store as the failed execution left it, its trace
showing that no subsequent task was checked or executed. -/
theorem execute_failure_stops_run :
    ∀ (m : String → String → Bool) (fs : FileSys) (now : Nat)
      (outcomes : SpawnOutcome) (store : Store) (task_def : TaskDefinition)
      (args : List (String × String))
      (tasks : List (String × TaskDefinition)) (task_deps : List String)
      (target : String) (rest : List String),
      (outcomes (prepare_command task_def.cmd args) = .error ()
        ∨ ∃ rc, outcomes (prepare_command task_def.cmd args) = .ok rc
            ∧ rc ≠ 0) →
      task_deps.contains target = true →
      alookup target tasks = some task_def →
      (check_task_status m fs store task_def args []).1.will_run = true →
      (execute_task m fs now outcomes store task_def args).1 ≠ 0
      ∧ (execute_task m fs now outcomes store task_def args).2.1 = store
      ∧ (execute_task m fs now outcomes store task_def args).2.2 = []
      ∧ run_loop m fs now outcomes tasks task_deps target args
          (target :: rest) store
        = .ok ((execute_task m fs now outcomes store task_def args).1,
            store,
            [(target, true,
              (check_task_status m fs store task_def args []).1.reason)]) := by
  intro m fs now outcomes store task_def args tasks task_deps target rest
    hfail hdeps hlook hrun
  have hstore : (check_task_status m fs store task_def args []).2.1
      = store := rfl
  have hexec : (execute_task m fs now outcomes store task_def args).1 ≠ 0
      ∧ (execute_task m fs now outcomes store task_def args).2.1 = store
      ∧ (execute_task m fs now outcomes store task_def args).2.2 = [] := by
    rcases hfail with herr | ⟨rc, hok, hrc⟩
    · refine ⟨?_, ?_, ?_⟩ <;> simp [execute_task, herr]
    · refine ⟨?_, ?_, ?_⟩ <;> simp [execute_task, hok, hrc]
  refine ⟨hexec.1, hexec.2.1, hexec.2.2, ?_⟩
  simp only [run_loop, hdeps, hlook, if_true, hrun, hstore]
  rw [if_pos hexec.1, hexec.2.1]

/-- A task whose command exits nonzero, used to witness the
failure-stops-run theorem. -/
def c8task : TaskDefinition :=
  { name := "t", cmd := "false", deps := [], inputs := [], outputs := [],
    working_dir := none, args := [] }

/-- Witness for C8: the failure theorem applied at a concrete task whose
spawn returns exit code 1, with one further task `u` in the order. -/
theorem execute_failure_stops_run_witness :
    (execute_task (fun pat p => pat == p) ⟨[]⟩ 7 (fun _ => .ok 1) []
        c8task []).1 ≠ 0
    ∧ (execute_task (fun pat p => pat == p) ⟨[]⟩ 7 (fun _ => .ok 1) []
        c8task []).2.1 = []
    ∧ (execute_task (fun pat p => pat == p) ⟨[]⟩ 7 (fun _ => .ok 1) []
        c8task []).2.2 = []
    ∧ run_loop (fun pat p => pat == p) ⟨[]⟩ 7 (fun _ => .ok 1)
        [("t", c8task)] ["t"] "t" [] ("t" :: ["u"]) []
      = .ok ((execute_task (fun pat p => pat == p) ⟨[]⟩ 7 (fun _ => .ok 1)
            [] c8task []).1, [],
          [("t", true, (check_task_status (fun pat p => pat == p) ⟨[]⟩ []
              c8task [] []).1.reason)]) :=
  execute_failure_stops_run (fun pat p => pat == p) ⟨[]⟩ 7 (fun _ => .ok 1)
    [] c8task [] [("t", c8task)] ["t"] "t" ["u"]
    (Or.inr ⟨1, rfl, by decide⟩) (by decide) rfl (by decide)

/-! ### The A → B → C dependency chain (claim C2)

`A` has an invalidated cache (no entry); `B` and `C` have fresh recorded
state: inputs unchanged, outputs present.  The spec's cascade rule says
that because `A` runs, `B` and `C` must report `dependency_triggered` and
run; the source's closure loop calls `check_task_status` without
dependency statuses, so they report `fresh` and are skipped. -/

def c2taskA : TaskDefinition :=
  { name := "A", cmd := "make a", deps := [], inputs := [],
    outputs := ["a.out"], working_dir := none, args := [] }

def c2taskB : TaskDefinition :=
  { name := "B", cmd := "make b", deps := ["A"], inputs := ["b.in"],
    outputs := ["b.out"], working_dir := none, args := [] }

def c2taskC : TaskDefinition :=
  { name := "C", cmd := "make c", deps := ["B"], inputs := ["c.in"],
    outputs := ["c.out"], working_dir := none, args := [] }

def c2tasks : List (String × TaskDefinition) :=
  [("A", c2taskA), ("B", c2taskB), ("C", c2taskC)]

/-- All inputs and outputs of the chain exist; inputs carry the recorded
mtimes. -/
def c2fs : FileSys :=
  ⟨[("a.out", 50), ("b.in", 10), ("b.out", 50), ("c.in", 10),
    ("c.out", 50)]⟩

/-- Recorded state for `B` and `C` (fresh); none for `A` — its cached
state has been invalidated. -/
def c2store : Store :=
  [(make_cache_key (hash_task_definition c2taskB) "",
    { last_run := 50, input_state := [("b.in", 10)] }),
   (make_cache_key (hash_task_definition c2taskC) "",
    { last_run := 50, input_state := [("c.in", 10)] })]

/-- C2. Running the closure of `C` through the closure executor after
invalidating `A`'s cached state: `A` is checked, reports `never_run` and
executes (successfully), but `B` and `C` report `fresh` with `will_run =
false` and are skipped — no `dependency_triggered` status occurs, because
the closure loop passes no dependency statuses to `check_task_status`. -/
theorem closure_run_no_dependency_trigger :
    (tasks_execute_task (fun pat p => pat == p) c2fs 100 (fun _ => .ok 0)
        c2tasks 10 "C" [] c2store).map (fun r => r.2.2)
      = .ok [("A", true, "never_run"), ("B", false, "fresh"),
             ("C", false, "fresh")] := rfl

/-! ## state.py — `StateManager.load`

`load` parses the state file with `json.load` and rebuilds the store via
`TaskState.from_dict` on each entry, catching only `json.JSONDecodeError`
and `KeyError`.  A JSON value is modelled structurally; the Python
exceptions that subscripting can raise are modelled explicitly:
subscripting a non-object with a string key raises `TypeError`, calling
`.items()` on a non-object raises `AttributeError`, and neither is caught
by `load`. -/

/-- A parsed JSON value (floats do not occur in state files written by
this program; numbers are modelled as integers). -/
inductive Json where
  | null
  | bool (b : Bool)
  | num (n : Int)
  | str (s : String)
  | arr (items : List Json)
  | obj (fields : List (String × Json))

/-- The Python exceptions relevant to `load` beyond the parse error. -/
inductive PyError where
  | keyError
  | typeError
  | attributeError
deriving Repr, DecidableEq

/-- Python `value[key]` for a string key: a present object field, a
`KeyError` for an absent object field, a `TypeError` for any non-object
(list, string, number, boolean, null). -/
def subscript : Json → String → Except PyError Json
  | .obj fields, key =>
    match alookup key fields with
    | some v => .ok v
    | none => .error .keyError
  | _, _ => .error .typeError

/-- Embeds `TaskState.from_dict`: reads `data["last_run"]` and
`data["input_state"]`, storing whatever values are present (the source
performs no type validation on them). -/
def taskstate_from_dict (v : Json) : Except PyError (Json × Json) := do
  let lr ← subscript v "last_run"
  let is ← subscript v "input_state"
  .ok (lr, is)

/-- The dict comprehension of `load`, left to right, first exception
propagating. -/
def load_entries :
    List (String × Json) → Except PyError (List (String × (Json × Json)))
  | [] => .ok []
  | (k, v) :: rest => do
    let ts ← taskstate_from_dict v
    let r ← load_entries rest
    .ok ((k, ts) :: r)

/-- Embeds `StateManager.load` past the file read: a parse failure
(`json.JSONDecodeError`) and a `KeyError` from a missing field are caught
and yield the empty store; every other exception — `AttributeError` from
`.items()` on a non-object, `TypeError` from subscripting a non-object
entry value — propagates to the caller. -/
def load_state (content : Except Unit Json) :
    Except PyError (List (String × (Json × Json))) :=
  match content with
  | .error _ => .ok []
  | .ok (.obj fields) =>
    match load_entries fields with
    | .ok l => .ok l
    | .error .keyError => .ok []
    | .error e => .error e
  | .ok _ => .error .attributeError

/-- C9. Evaluation of `load`: content that is valid JSON but not of the
expected structure raises instead of yielding an empty store — the object
`{"k": 42}` raises an uncaught `TypeError` and the array `[1, 2]` an
uncaught `AttributeError` — while invalid JSON and a missing required key
yield the empty store, and well-formed content yields the parsed
mapping. -/
theorem load_raises_on_unexpected_structure :
    load_state (.ok (Json.obj [("k", Json.num 42)]))
        = .error PyError.typeError
    ∧ load_state (.ok (Json.arr [Json.num 1, Json.num 2]))
        = .error PyError.attributeError
    ∧ load_state (.error ()) = .ok []
    ∧ load_state (.ok (Json.obj [("k", Json.obj [("last_run", Json.num 1)])]))
        = .ok []
    ∧ load_state (.ok (Json.obj [("k", Json.obj
          [("last_run", Json.num 1), ("input_state", Json.obj [])])]))
        = .ok [("k", (Json.num 1, Json.obj []))] :=
  ⟨rfl, rfl, rfl, rfl, rfl⟩

/-! ## Environment tracking (spec-modelled)

The repository's unit tests (`tests/unit/test_environment_tracking.py`)
exercise `hasher.hash_environment_definition` and
`Executor._check_environment_changed`, but neither exists in the source
tree; the definitions below are modelled from the spec (§3 Environment,
§4.1 environment hash, §4.5 rule 2) and checked against those tests'
expectations. -/

/-- Modelled from the spec: an Environment — "an optional named execution
context (shell/interpreter selection, startup args, a preamble script, or
container build parameters: dockerfile, context, volumes)". -/
structure Environment where
  name : String
  shell : Option String := none
  args : List String := []
  preamble : Option String := none
  dockerfile : Option String := none
  context : Option String := none
  volumes : List String := []
deriving Repr, DecidableEq

/-- Modelled from the spec: `hash_environment_definition` is absent from
src (only its tests reference it).  §4.1: the hash covers "shell path,
shell args (sorted, order-independent), preamble script text, and any
container-build fields (dockerfile, context, volumes — sorted)"; renamed
but otherwise identical environments hash differently, so the name
participates.  As with `hash_task_definition`, the canonical serialisation
stands in for the truncated SHA-256 digest. -/
def hash_environment_definition (e : Environment) : String :=
  "name=" ++ e.name
    ++ ";shell=" ++ e.shell.getD ""
    ++ ";args=" ++ String.intercalate "," (sortStr e.args)
    ++ ";preamble=" ++ e.preamble.getD ""
    ++ ";dockerfile=" ++ e.dockerfile.getD ""
    ++ ";context=" ++ e.context.getD ""
    ++ ";volumes=" ++ String.intercalate "," (sortStr e.volumes)

/-- The task state as the spec describes it for environment-referencing
tasks: §3 TaskState's `inputState` is "also used to stash the
environment-definition hash under a reserved key per environment name";
because those stashed values are hashes rather than mtimes, they are
carried in a separate field keyed by the same reserved
`_env_hash_<name>` strings. -/
structure TaskStateE where
  last_run : Nat
  input_state : List (String × Nat)
  env_hashes : List (String × String)
deriving Repr, DecidableEq

def StoreE := List (String × TaskStateE)

instance : DecidableEq StoreE := by unfold StoreE; infer_instance

/-- Modelled from the spec: `Executor._check_environment_changed` is
absent from src (only its tests reference it).  §4.5 rule 2: the task
"references a named Environment whose current hash differs from (or is
absent from) the cached hash stored under that task's state"; a task with
no environment reference never triggers it, and an environment deleted
from the recipe counts as changed (its current hash is absent). -/
def check_environment_changed (environments : List (String × Environment))
    (cached_env_hashes : List (String × String)) (env_name : String) :
    Bool :=
  if env_name = "" then false
  else
    match alookup ("_env_hash_" ++ env_name) cached_env_hashes with
    | none => true
    | some cached_hash =>
      match alookup env_name environments with
      | none => true
      | some env => cached_hash ≠ hash_environment_definition env

/-- Modelled from the spec: the staleness state machine of §4.5 with rule
2 (environment_changed) in place, evaluated between `never_run` and
`inputs_changed`; the remaining rules are those of the embedded
`check_task_status`. -/
def check_task_status_env (m : String → String → Bool) (fs : FileSys)
    (store : StoreE) (environments : List (String × Environment))
    (task_def : TaskDefinition) (args : List (String × String))
    (dep_statuses : List (String × TaskStatus)) : TaskStatus :=
  let cache_key := make_cache_key (hash_task_definition task_def)
    (if args ≠ [] then hash_arguments args else "")
  match alookup cache_key store with
  | none =>
    { task_name := task_def.name, will_run := true, reason := "never_run" }
  | some cached_state =>
    if check_environment_changed environments cached_state.env_hashes
        (task_def.env.getD "") then
      { task_name := task_def.name, will_run := true,
        reason := "environment_changed" }
    else
      let input_changes := get_input_changes m fs task_def
        { last_run := cached_state.last_run,
          input_state := cached_state.input_state }
      if input_changes ≠ [] then
        { task_name := task_def.name, will_run := true,
          reason := "inputs_changed", changed_files := input_changes }
      else
        match task_def.outputs.find? (fun pat => !(fs.existsPath pat)) with
        | some pat =>
          { task_name := task_def.name, will_run := true,
            reason := "outputs_missing", changed_files := [pat] }
        | none =>
          if dep_statuses.any (fun p => p.2.will_run) then
            { task_name := task_def.name, will_run := true,
              reason := "dependency_triggered" }
          else if task_def.inputs.isEmpty && task_def.outputs.isEmpty then
            { task_name := task_def.name, will_run := true,
              reason := "no_outputs" }
          else
            { task_name := task_def.name, will_run := false,
              reason := "fresh", last_run := some cached_state.last_run }

/-- C3. For every task referencing a named Environment and holding a
recorded successful run, if the hash of the environment's current
definition differs from (or is absent among) the hash cached under the
task's state, the next status check reports `will_run = true` with reason
`environment_changed` — independently of the filesystem, so in particular
even when the task's own inputs are unchanged. -/
theorem environment_changed_detected :
    ∀ (m : String → String → Bool) (fs : FileSys) (store : StoreE)
      (environments : List (String × Environment))
      (task_def : TaskDefinition) (args : List (String × String))
      (dep_statuses : List (String × TaskStatus)) (cached : TaskStateE)
      (envName : String) (env : Environment),
      task_def.env = some envName →
      envName ≠ "" →
      alookup (make_cache_key (hash_task_definition task_def)
        (if args ≠ [] then hash_arguments args else "")) store
        = some cached →
      alookup envName environments = some env →
      alookup ("_env_hash_" ++ envName) cached.env_hashes
        ≠ some (hash_environment_definition env) →
      check_task_status_env m fs store environments task_def args
          dep_statuses
        = { task_name := task_def.name, will_run := true,
            reason := "environment_changed" } := by
  intro m fs store environments task_def args dep_statuses cached envName
    env henv hne hcache henvlook hdiff
  simp only [check_task_status_env, hcache]
  have hchanged : check_environment_changed environments cached.env_hashes
      (task_def.env.getD "") = true := by
    rw [henv]
    simp only [Option.getD_some]
    unfold check_environment_changed
    rw [if_neg hne]
    cases hstash : alookup ("_env_hash_" ++ envName) cached.env_hashes with
    | none => rfl
    | some cached_hash =>
      rw [hstash] at hdiff
      simp only [henvlook, decide_eq_true_eq]
      intro he
      exact hdiff (by rw [he])
  simp [hchanged]

/-- Witness for C3: the spec's own example — a task whose Environment's
shell is later changed from `/bin/bash` to `/bin/zsh` while its input file
is unchanged on disk reports `environment_changed`. -/
theorem environment_changed_detected_witness :
    check_task_status_env (fun pat p => pat == p) ⟨[("a", 10)]⟩
        [(make_cache_key (hash_task_definition
            { name := "t", cmd := "echo", deps := [], inputs := ["a"],
              outputs := [], working_dir := none, args := [],
              env := some "test" }) "",
          { last_run := 50, input_state := [("a", 10)],
            env_hashes := [("_env_hash_test",
              hash_environment_definition
                { name := "test", shell := some "/bin/bash",
                  args := ["-c"] })] })]
        [("test", { name := "test", shell := some "/bin/zsh",
                    args := ["-c"] })]
        { name := "t", cmd := "echo", deps := [], inputs := ["a"],
          outputs := [], working_dir := none, args := [],
          env := some "test" } [] []
      = { task_name := "t", will_run := true,
          reason := "environment_changed" } :=
  environment_changed_detected (fun pat p => pat == p) ⟨[("a", 10)]⟩ _ _ _
    [] [] _ "test" _ rfl (by decide) rfl rfl (by decide)

/-! ## Template substitution engine (spec-modelled)

The repository's unit tests (`tests/unit/test_substitution.py`) exercise
`tasktree.substitution` — `PLACEHOLDER_PATTERN`, `substitute_variables`,
`substitute_arguments`, `substitute_environment`, `substitute_all` — but
that module is absent from the source tree; the definitions below are
modelled from the spec (§4.4) and checked against those tests'
expectations.  The regex `{{\s*(var|arg|env)\s*\.\s*(ident)\s*}}` is
modelled as a recursive scanner; each scope's pass replaces its own
placeholders left to right (replacement text is not rescanned, as with
`re.sub`), leaves other scopes' placeholders untouched, and fails on a
name unbound in its scope.  Error messages carry the scope label and the
identifier, per the tests ("not defined" for variables and arguments,
"not set" for environment variables). -/

def isWsChar (c : Char) : Bool :=
  c = ' ' || c = '\t' || c = '\n' || c = '\r'

def isIdentStart (c : Char) : Bool := c.isAlpha || c = '_'

def isIdentChar (c : Char) : Bool := c.isAlpha || c.isDigit || c = '_'

/-- `\s*`: drop leading whitespace. -/
def skipWs : List Char → List Char
  | [] => []
  | c :: rest => if isWsChar c then skipWs rest else c :: rest

/-- The identifier-tail characters at the front of the input. -/
def takeIdentChars : List Char → List Char × List Char
  | [] => ([], [])
  | c :: rest =>
    if isIdentChar c then
      let r := takeIdentChars rest
      (c :: r.1, r.2)
    else ([], c :: rest)

/-- `[A-Za-z_][A-Za-z0-9_]*`: an identifier at the front of the input. -/
def parseIdent : List Char → Option (String × List Char)
  | [] => none
  | c :: rest =>
    if isIdentStart c then
      let r := takeIdentChars rest
      some (String.mk (c :: r.1), r.2)
    else none

/-- The body of a placeholder after its opening `{{`:
`\s*(var|arg|env)\s*\.\s*(ident)\s*}}`.  Returns the scope, the name and
the input after the closing braces. -/
def parsePlaceholder (l : List Char) :
    Option (String × String × List Char) :=
  match parseIdent (skipWs l) with
  | none => none
  | some (scope, r1) =>
    if scope == "var" || scope == "arg" || scope == "env" then
      match skipWs r1 with
      | '.' :: r2 =>
        match parseIdent (skipWs r2) with
        | none => none
        | some (name, r3) =>
          match skipWs r3 with
          | '}' :: '}' :: r4 => some (scope, name, r4)
          | _ => none
      | _ => none
    else none

/-- A placeholder starting at the current position, opening braces
included. -/
def parseAt (l : List Char) : Option (String × String × List Char) :=
  match l with
  | '{' :: '{' :: rest => parsePlaceholder rest
  | _ => none

/-- One scope's substitution pass over the text, left to right: a
placeholder of this scope is replaced by the bound value (or the pass
fails when the name is unbound); a placeholder of another scope is copied
verbatim and scanning resumes after it; any other character is copied.
The fuel only drives the structural recursion; every step consumes at
least one character, so fuel equal to the input length is always
sufficient and the zero-fuel arm is unreachable from the wrappers
below. -/
def substPass (scope : String) (look : String → Option String)
    (label suffix : String) : Nat → List Char → Except String (List Char)
  | _, [] => .ok []
  | 0, l => .ok l
  | fuel + 1, c :: rest =>
    match parseAt (c :: rest) with
    | some (sc, name, rest') =>
      if sc = scope then
        match look name with
        | some v =>
          (substPass scope look label suffix fuel rest').map
            (fun t => v.toList ++ t)
        | none => .error (label ++ " " ++ name ++ " " ++ suffix)
      else
        (substPass scope look label suffix fuel rest').map
          (fun t =>
            (c :: rest).take ((c :: rest).length - rest'.length) ++ t)
    | none =>
      (substPass scope look label suffix fuel rest).map (fun t => c :: t)

/-- Modelled from the spec: `substitution.substitute_variables` (absent
from src; only its tests reference it): resolve `{{ var.<name> }}`
against the named variables. -/
def substitute_variables (text : String)
    (vars : List (String × String)) : Except String String :=
  (substPass "var" (fun n => alookup n vars) "Variable"
      "is not defined" text.toList.length text.toList).map String.mk

/-- Modelled from the spec: `substitution.substitute_arguments`: resolve
`{{ arg.<name> }}` against the bound (stringified) arguments. -/
def substitute_arguments (text : String)
    (args : List (String × String)) : Except String String :=
  (substPass "arg" (fun n => alookup n args) "Argument"
      "is not defined" text.toList.length text.toList).map String.mk

/-- Modelled from the spec: `substitution.substitute_environment`:
resolve `{{ env.<name> }}` against the process environment (passed
explicitly). -/
def substitute_environment (text : String)
    (environ : List (String × String)) : Except String String :=
  (substPass "env" (fun n => alookup n environ) "Environment variable"
      "is not set" text.toList.length text.toList).map String.mk

/-- Modelled from the spec: `substitution.substitute_all`: the scope
passes in the spec's fixed precedence order — variables, then arguments,
then environment — each pass completing before the next begins, so a
value produced by an earlier scope is eligible for later-scope
substitution.  (The spec's fourth scope, the task's own named
inputs/outputs, is outside this model, as it is outside the tests'
interface.) -/
def substitute_all (text : String) (vars args environ :
    List (String × String)) : Except String String := do
  let t1 ← substitute_variables text vars
  let t2 ← substitute_arguments t1 args
  substitute_environment t2 environ

theorem skipWs_ws_append (ws : List Char)
    (h : ∀ c ∈ ws, isWsChar c = true) (l : List Char) :
    skipWs (ws ++ l) = skipWs l := by
  induction ws with
  | nil => rfl
  | cons c rest ih =>
    have hc : isWsChar c = true := h c (by simp)
    simp only [List.cons_append, skipWs, hc, if_true]
    exact ih (fun d hd => h d (by simp [hd]))

theorem skipWs_not (c : Char) (l : List Char) (h : isWsChar c = false) :
    skipWs (c :: l) = c :: l := by
  simp [skipWs, h]

/-- The input starts with no identifier character (or is empty). -/
def headNotIdent : List Char → Bool
  | [] => true
  | c :: _ => !isIdentChar c

theorem takeIdentChars_stop (l : List Char) (h : headNotIdent l = true) :
    takeIdentChars l = ([], l) := by
  cases l with
  | nil => rfl
  | cons c rest =>
    simp only [headNotIdent, Bool.not_eq_true'] at h
    simp [takeIdentChars, h]

theorem headNotIdent_ws_cons (ws : List Char)
    (hws : ∀ c ∈ ws, isWsChar c = true) (d : Char)
    (hd : isIdentChar d = false) (r : List Char) :
    headNotIdent (ws ++ d :: r) = true := by
  cases ws with
  | nil => simp [headNotIdent, hd]
  | cons w rest =>
    have hw : isWsChar w = true := hws w (by simp)
    have hwni : isIdentChar w = false := by
      simp only [isWsChar, Bool.or_eq_true, decide_eq_true_eq] at hw
      rcases hw with ((h | h) | h) | h <;> subst h <;> decide
    simp [headNotIdent, hwni]

theorem parseIdent_var (l : List Char) (h : headNotIdent l = true) :
    parseIdent ('v' :: 'a' :: 'r' :: l) = some ("var", l) := by
  simp [parseIdent, takeIdentChars, takeIdentChars_stop l h,
    show isIdentStart 'v' = true from by decide,
    show isIdentChar 'a' = true from by decide,
    show isIdentChar 'r' = true from by decide]

theorem parseIdent_a (l : List Char) (h : headNotIdent l = true) :
    parseIdent ('a' :: l) = some ("a", l) := by
  simp [parseIdent, takeIdentChars_stop l h,
    show isIdentStart 'a' = true from by decide]

/-- The placeholder body `\s* var \s* . \s* a \s* }}` parses to scope
`var` and name `a` for every choice of the four whitespace runs. -/
theorem parsePlaceholder_ws (ws1 ws2 ws3 ws4 : List Char)
    (hws1 : ∀ c ∈ ws1, isWsChar c = true)
    (hws2 : ∀ c ∈ ws2, isWsChar c = true)
    (hws3 : ∀ c ∈ ws3, isWsChar c = true)
    (hws4 : ∀ c ∈ ws4, isWsChar c = true) (rest : List Char) :
    parsePlaceholder (ws1 ++ 'v' :: 'a' :: 'r' ::
        (ws2 ++ '.' :: (ws3 ++ 'a' :: (ws4 ++ '}' :: '}' :: rest))))
      = some ("var", "a", rest) := by
  have h2 : headNotIdent (ws2 ++ '.' :: (ws3 ++ 'a' ::
      (ws4 ++ '}' :: '}' :: rest))) = true :=
    headNotIdent_ws_cons ws2 hws2 '.' (by decide) _
  have h4 : headNotIdent (ws4 ++ '}' :: '}' :: rest) = true :=
    headNotIdent_ws_cons ws4 hws4 '}' (by decide) _
  simp only [parsePlaceholder, skipWs_ws_append ws1 hws1,
    skipWs_not 'v' _ (by decide), parseIdent_var _ h2]
  simp only [skipWs_ws_append ws2 hws2, skipWs_not '.' _ (by decide),
    skipWs_ws_append ws3 hws3, skipWs_not 'a' _ (by decide),
    parseIdent_a _ h4, skipWs_ws_append ws4 hws4,
    skipWs_not '}' _ (by decide)]
  rfl

/-- C5. Substitution resolves scoped `{{ <scope>.<name> }}` placeholders
for the scopes `var`, `arg` and `env`: substituting
`{{ var.a }}-{{ arg.b }}` with variables `{a: x}` and arguments `{b: y}`
yields exactly `x-y`; an `env` placeholder resolves against the process
environment; and whitespace around the scope, the dot and the name is
insignificant — for all four whitespace runs, the padded `var.a`
placeholder resolves to the bound value. -/
theorem substitute_scoped_placeholders :
    substitute_all "\x7b\x7b var.a \x7d\x7d-\x7b\x7b arg.b \x7d\x7d"
        [("a", "x")] [("b", "y")] [] = .ok "x-y"
    ∧ substitute_all "\x7b\x7b env.HOME \x7d\x7d" [] [] [("HOME", "/root")]
        = .ok "/root"
    ∧ ∀ (ws1 ws2 ws3 ws4 : List Char),
        (∀ c ∈ ws1, isWsChar c = true) → (∀ c ∈ ws2, isWsChar c = true) →
        (∀ c ∈ ws3, isWsChar c = true) → (∀ c ∈ ws4, isWsChar c = true) →
        substitute_variables (String.mk ('{' :: '{' :: (ws1 ++ 'v' :: 'a'
            :: 'r' :: (ws2 ++ '.' :: (ws3 ++ 'a' :: (ws4 ++ ['}', '}']))))))
          [("a", "x")] = .ok "x" := by
  refine ⟨rfl, rfl, ?_⟩
  intro ws1 ws2 ws3 ws4 hws1 hws2 hws3 hws4
  have hparse := parsePlaceholder_ws ws1 ws2 ws3 ws4 hws1 hws2 hws3 hws4 []
  unfold substitute_variables
  have hlen : (String.mk ('{' :: '{' :: (ws1 ++ 'v' :: 'a' :: 'r' ::
      (ws2 ++ '.' :: (ws3 ++ 'a' :: (ws4 ++ ['}', '}'])))))).toList
      = '{' :: '{' :: (ws1 ++ 'v' :: 'a' :: 'r' ::
        (ws2 ++ '.' :: (ws3 ++ 'a' :: (ws4 ++ ['}', '}'])))) := rfl
  rw [hlen]
  simp only [List.length_cons]
  simp only [substPass, parseAt, hparse]
  rfl

end TaskTree
